import Mathlib

/-!
# Verification of the FCM grouping engine (`src/app.ts` and its class files)

Shallow embedding of the repository's Fuzzy C-Means model: the `FuzzyCMeans`
class (`src/app.ts`, duplicated in `src/unnamed/part_001`), its data holders
(`Person`, `ClusterCenter`, `Group`, `IMember`) and the two core operations
`buildModel` and `formGroups`.

The source computes with `decimal.js` decimals, which round the results of
`div`, `sqrt` and `pow` to the library's working precision (20 significant
digits by default); its special values (`Infinity`, `-Infinity`, `NaN`) and
their propagation rules are exact and independent of the precision.  We model
a decimal as an exact rational together with those special values.  The
exact-rational idealization agrees with the library wherever a result is
exactly representable — every concrete run below is built from such values —
and the statements that depend on a value's magnitude either use the claims'
own tolerance phrasing or are robust to rounding at the scale of the working
precision.  A `pow` with a genuinely fractional exponent has no exact rational
value at all; the model maps that case to `NaN` and no theorem relies on it.
-/

namespace Endah

/-- A `decimal.js` value: an exact rational, `Infinity`, `-Infinity` or `NaN`. -/
inductive Dec where
  | fin (q : ℚ)
  | inf
  | ninf
  | nan
deriving DecidableEq, Repr

namespace Dec

/-- Model of `Decimal.plus`: addition with the library's special-value rules
(`NaN` propagates, `Infinity + -Infinity = NaN`). -/
def add : Dec → Dec → Dec
  | nan, _ => nan
  | _, nan => nan
  | inf, ninf => nan
  | ninf, inf => nan
  | inf, _ => inf
  | _, inf => inf
  | ninf, _ => ninf
  | _, ninf => ninf
  | fin q, fin r => fin (q + r)

/-- Model of `Decimal.neg` (used to model `minus`). -/
def neg : Dec → Dec
  | nan => nan
  | inf => ninf
  | ninf => inf
  | fin q => fin (-q)

/-- Model of `Decimal.minus`. -/
def sub (a b : Dec) : Dec := add a (neg b)

/-- Model of `Decimal.times`: multiplication; `0 * Infinity = NaN`, signs as in IEEE. -/
def mul : Dec → Dec → Dec
  | nan, _ => nan
  | _, nan => nan
  | inf, inf => inf
  | inf, ninf => ninf
  | ninf, inf => ninf
  | ninf, ninf => inf
  | inf, fin q => if q = 0 then nan else if 0 < q then inf else ninf
  | fin q, inf => if q = 0 then nan else if 0 < q then inf else ninf
  | ninf, fin q => if q = 0 then nan else if 0 < q then ninf else inf
  | fin q, ninf => if q = 0 then nan else if 0 < q then ninf else inf
  | fin q, fin r => fin (q * r)

/-- Model of `Decimal.div` as exact rational division — the library rounds the
quotient to its working precision, so exact-value conclusions about quotients
hold in the library only at exactly representable values or within tolerance —
with the library's exact special-value rules: `x/0` is signed `Infinity`
(`0/0 = NaN`), `x/Infinity = 0`, `Infinity/Infinity = NaN`. -/
def div : Dec → Dec → Dec
  | nan, _ => nan
  | _, nan => nan
  | inf, inf => nan
  | inf, ninf => nan
  | ninf, inf => nan
  | ninf, ninf => nan
  | inf, fin q => if 0 ≤ q then inf else ninf
  | ninf, fin q => if 0 ≤ q then ninf else inf
  | fin _, inf => fin 0
  | fin _, ninf => fin 0
  | fin q, fin r =>
      if r = 0 then (if q = 0 then nan else if 0 < q then inf else ninf)
      else fin (q / r)

/-- Model of `Decimal.abs`. -/
def dabs : Dec → Dec
  | nan => nan
  | inf => inf
  | ninf => inf
  | fin q => fin |q|

/-- Model of `Decimal.lessThan`: strict comparison; any comparison with `NaN` is
`false`. -/
def ltB : Dec → Dec → Bool
  | nan, _ => false
  | _, nan => false
  | inf, _ => false
  | _, inf => true
  | ninf, ninf => false
  | ninf, _ => true
  | fin _, ninf => false
  | fin q, fin r => decide (q < r)

/-- Model of `Decimal.pow` with an integer exponent, as exact rational `zpow`
— the library rounds the result to its working precision, so this is exact in
the library only when the result is representable in it — with the library's
exact special cases: `0^negative = Infinity`, `x^0 = 1`, infinite bases as in
`Math.pow`. -/
def powInt (x : Dec) (n : ℤ) : Dec :=
  if n = 0 then fin 1
  else
    match x with
    | nan => nan
    | inf => if 0 < n then inf else fin 0
    | ninf =>
        if 0 < n then (if n % 2 = 0 then inf else ninf)
        else fin 0
    | fin q =>
        if q = 0 then (if 0 < n then fin 0 else inf)
        else fin (q ^ n)

/-- Model of `Decimal.pow` with a decimal exponent.  Integer exponents go
through `powInt` (exact rationals; see its caveat on the library's rounding).
A positive rational base with a genuinely fractional exponent has no exact
rational value at all; that case is mapped to `nan` and no theorem relies on
it.  A negative base with a fractional exponent is `NaN` in the library as
well. -/
def pow : Dec → Dec → Dec
  | x, fin e =>
      if e = 0 then fin 1
      else if e.den = 1 then powInt x e.num
      else match x with
        | nan => nan
        | inf => if 0 < e then inf else fin 0
        | ninf => if 0 < e then inf else fin 0
        | fin q => if q ≤ 0 then (if q = 0 then (if 0 < e then fin 0 else inf) else nan) else nan
  | _, nan => nan
  | x, inf =>
      match x with
      | nan => nan
      | inf => inf
      | ninf => inf
      | fin q => if |q| < 1 then fin 0 else if |q| = 1 then nan else inf
  | x, ninf =>
      match x with
      | nan => nan
      | inf => fin 0
      | ninf => fin 0
      | fin q => if |q| < 1 then inf else if |q| = 1 then nan else fin 0

/-- Largest `r ≤ fuel` with `r * r ≤ n` (a structurally recursive integer
square root, so that concrete runs reduce inside the kernel). -/
def sqrtNatGo (n : ℕ) : ℕ → ℕ
  | 0 => 0
  | r + 1 => if (r + 1) * (r + 1) ≤ n then r + 1 else sqrtNatGo n r

/-- Integer square root: largest `r` with `r * r ≤ n`. -/
def sqrtNat (n : ℕ) : ℕ := sqrtNatGo n n

/-- Exact rational square root: correct whenever `q` is the square of a
rational (numerator and denominator of the reduced form are perfect squares);
`decimal.js` returns exactly this value in that case and a rounded
approximation otherwise. -/
def ratSqrt (q : ℚ) : ℚ := mkRat (sqrtNat q.num.toNat) (sqrtNat q.den)

/-- Model of `Decimal.sqrt`: `NaN` on negatives, exact on rational squares. -/
def dsqrt : Dec → Dec
  | nan => nan
  | inf => inf
  | ninf => nan
  | fin q => if q < 0 then nan else fin (ratSqrt q)

/-- Model of `Array.prototype.reduce` with no initial value (`reduce((p,c) => f p c)`):
JS throws on an empty array; the model returns `NaN` there and every theorem
works on nonempty lists. -/
def reduce1 (f : Dec → Dec → Dec) : List Dec → Dec
  | [] => nan
  | h :: t => t.foldl f h

/-- Sum of a list of decimals in source order (`reduce((p,c) => p.plus(c))`). -/
def sum1 (l : List Dec) : Dec := reduce1 add l

end Dec

/-! ## Data model (`Person`, `IMember`, the FCM state) -/

/-- Model of `Person` (`src/classes/Person.ts`): integer id plus the four integer trait
scores; only its feature vector matters to the algorithms, so the four scores
are kept as the rational list the `toVector` getter produces. -/
structure PersonM where
  id : ℤ
  features : List ℚ
deriving DecidableEq, Repr

/-- Model of `Person.toVector`: the feature scores as decimals. -/
def PersonM.toVector (p : PersonM) : List Dec := p.features.map Dec.fin

/-- Model of `IMember` (`src/interfaces`, `part_000`): a population member paired with
its membership vector (one entry per cluster). -/
structure MRow where
  person : PersonM
  vector : List Dec
deriving DecidableEq, Repr

/-- Placeholder row used only as the (never-reached) `getD` default. -/
def noRow : MRow := ⟨⟨0, []⟩, []⟩

/-- The mutable fields of a `FuzzyCMeans` instance: partition matrix `_mat`,
group count `_groupNum`, cluster centers `_clusterCenter` (vectors; the
`ClusterCenter` id is its position + 1), objective `_objectiveValue` and
`_mass`. -/
structure FCMState where
  mat : List MRow
  groupNum : ℕ
  centers : List (List Dec)
  objectiveValue : Dec
  mass : ℚ
deriving DecidableEq, Repr

/-- Model of `FuzzyCMeans.distance`: Euclidean distance
`sqrt(Σ (l_i - r_i)^2)`.  The source throws on a length mismatch; the model
returns `NaN` there and every theorem that uses distances supplies
equal-length vectors. -/
def distance (l r : List Dec) : Dec :=
  if l.length = r.length then
    Dec.dsqrt (Dec.sum1 ((l.zip r).map fun p => Dec.powInt (Dec.sub p.1 p.2) 2))
  else Dec.nan

/-! ## `buildModel` iteration pieces (steps 2.a-2.e of the source loop) -/

/-- Step 2.a: the new cluster-center vectors.  For each cluster index
`i < groupNum`: `Σ_rows (x_row * u[row,i]^m) / Σ_rows u[row,i]^m`, the inner
vector sum being the source's `reduce` with `null` seed (first element as
seed, elementwise `plus`). -/
def clusterCenters (m : ℚ) (k : ℕ) (mat : List MRow) : List (List Dec) :=
  (List.range k).map fun i =>
    let sumUPowered := Dec.sum1 (mat.map fun row => Dec.pow (row.vector.getD i Dec.nan) (Dec.fin m))
    let summed :=
      match mat.map (fun row => row.person.toVector.map fun v => Dec.mul v (Dec.pow (row.vector.getD i Dec.nan) (Dec.fin m))) with
      | [] => []
      | h :: t => t.foldl (fun p c => (p.zip c).map fun (x : Dec × Dec) => Dec.add x.1 x.2) h
    summed.map fun v => Dec.div v sumUPowered

/-- Step 2.b: `distanceMatrix[j][i] = distance(center_j, entity_i)`. -/
def distanceMatrix (centers : List (List Dec)) (mat : List MRow) : List (List Dec) :=
  centers.map fun center => mat.map fun row => distance center row.person.toVector

/-- Step 2.c, exactly as the nested index loops of the source write it:
`u[i][j] = D[j][i] ^ (-2/(m-1))  /  Σ_k D[k][j]` — note the denominator sums
the *unpowered* distances and indexes each distance row at the *cluster*
index `j`, not at the entity index `i`. -/
def updateMat (m : ℚ) (D : List (List Dec)) (mat : List MRow) : List MRow :=
  (List.range mat.length).map fun i =>
    let row := mat.getD i noRow
    { row with
      vector := (List.range row.vector.length).map fun j =>
        Dec.div
          (Dec.pow ((D.getD j []).getD i Dec.nan) (Dec.div (Dec.fin (-2)) (Dec.fin (m - 1))))
          (Dec.sum1 (D.map fun drow => drow.getD j Dec.nan)) }

/-- The "Extension" normalization: each row divided by its own sum. -/
def normalizeMat (mat : List MRow) : List MRow :=
  mat.map fun row =>
    let sumInVector := Dec.sum1 row.vector
    { row with vector := row.vector.map fun v => Dec.div v sumInVector }

/-- Step 2.d: objective `J = Σ_rows Σ_j u[row,j]^m * distance(center_j, x_row)`
(inner `mapIdx` over the centers, then the source's two `reduce`s). -/
def objectiveOf (m : ℚ) (centers : List (List Dec)) (mat : List MRow) : Dec :=
  let perRow := mat.map fun row =>
    centers.mapIdx fun j center =>
      Dec.mul (Dec.pow (row.vector.getD j Dec.nan) (Dec.fin m)) (distance center row.person.toVector)
  let summed :=
    match perRow with
    | [] => []
    | h :: t => t.foldl (fun p c => (p.zip c).map fun (x : Dec × Dec) => Dec.add x.1 x.2) h
  Dec.sum1 summed

/-- One full iteration body (2.a-2.d): the state with the new matrix and
centers (the stored objective untouched) together with the freshly computed
objective value. -/
def iterOnce (st : FCMState) : FCMState × Dec :=
  let cs := clusterCenters st.mass st.groupNum st.mat
  let D := distanceMatrix cs st.mat
  let mat1 := normalizeMat (updateMat st.mass D st.mat)
  ({ st with mat := mat1, centers := cs }, objectiveOf st.mass cs mat1)

/-- The `while (iteration <= maxIteration && !stop)` loop; the fuel is the
number of iterations still allowed (`maxIteration - iteration + 1`).  On
convergence (`|J_new - J_prev| < minImprovement`) the loop stops keeping the
new matrix and centers and the *old* objective; otherwise the new objective is
stored and the loop continues. -/
def buildLoop (minImprovement : Dec) : ℕ → FCMState → FCMState
  | 0, st => st
  | fuel + 1, st =>
      let r := iterOnce st
      if Dec.ltB (Dec.dabs (Dec.sub r.2 st.objectiveValue)) minImprovement then r.1
      else buildLoop minImprovement fuel { r.1 with objectiveValue := r.2 }

/-- Model of `FuzzyCMeans.buildModel`: the two entry validations (in source order:
`minImprovement` strictly inside `(0,1)` first, then `mass > 1`), each failure
raising the source's error message before any state change; on success `_mass`
is set and the loop runs. -/
def buildModel (st : FCMState) (maxIteration : ℕ) (minImprovement : Dec) (mass : ℚ) :
    Except String FCMState :=
  if Dec.ltB (Dec.fin 0) minImprovement && Dec.ltB minImprovement (Dec.fin 1) then
    if 1 < mass then
      .ok (buildLoop minImprovement maxIteration { st with mass := mass })
    else .error "Mass must be greater than 1"
  else .error "Minimum improvement must be greater than 0 and lower than 1"

/-! ## Characterization helpers for the loop theorems -/

/-- The non-converged loop body: run one iteration and store its objective. -/
def stepNC (st : FCMState) : FCMState :=
  { (iterOnce st).1 with objectiveValue := (iterOnce st).2 }

/-- State entering iteration `n` (0-based) when no earlier iteration
converged. -/
def seqState (st : FCMState) (n : ℕ) : FCMState := stepNC^[n] st

/-- Whether the convergence test fires at iteration `n` (0-based), i.e. the
`n`-th computed objective is within `minImprovement` of the stored one. -/
def convAt (minImprovement : Dec) (st : FCMState) (n : ℕ) : Bool :=
  Dec.ltB (Dec.dabs (Dec.sub (iterOnce (seqState st n)).2 (seqState st n).objectiveValue))
    minImprovement

/-! ## `formGroups` (hard assignment, balancing, redistribution) -/

/-- Model of `Group` (`src/unnamed/part_003`): id, centroid snapshot, member list. -/
structure GroupM where
  id : ℕ
  center : List Dec
  members : List MRow
deriving DecidableEq, Repr

/-- Placeholder group used only as the (never-reached) `getD` default. -/
def noGroup : GroupM := ⟨0, [], []⟩

/-- Insert `x` after every already-placed element `y` with `le y x` — the
insertion step of a stable sort. -/
def insertLe {α : Type} (le : α → α → Bool) (x : α) : List α → List α
  | [] => [x]
  | y :: t => if le y x then y :: insertLe le x t else x :: y :: t

/-- Stable sort (JS `Array.prototype.sort` is stable): left-to-right insertion,
equal keys keep their original order. -/
def sortStable {α : Type} (le : α → α → Bool) (l : List α) : List α :=
  l.foldl (fun acc x => insertLe le x acc) []

/-- The `(a,b) => a.minus(b).toNumber()` comparator read as "`a` sorts no later
than `b`", i.e. `a - b ≤ 0`.  A `NaN` difference makes the JS sort order
unspecified; the model keeps the original order then (never exercised by a
theorem). -/
def cmpKeyLe (a b : Dec) : Bool :=
  match Dec.sub a b with
  | Dec.fin q => decide (q ≤ 0)
  | Dec.inf => false
  | Dec.ninf => true
  | Dec.nan => true

/-- The selection scan of the hard-assignment step: `maxValue` starts at `0`,
`selectedGroupId` at `0`, and index `i` takes `selectedGroupId := i + 1` only
when its value is strictly greater than `maxValue`. -/
def selGo : List Dec → Dec → ℕ → ℕ → ℕ
  | [], _, sel, _ => sel
  | v :: t, maxV, sel, i =>
      if Dec.ltB maxV v then selGo t v (i + 1) (i + 1) else selGo t maxV sel (i + 1)

/-- The group id (1-based) the hard-assignment step selects for a membership
vector; `0` when no entry is strictly positive. -/
def selectedGroupId (vector : List Dec) : ℕ := selGo vector (Dec.fin 0) 0 0

/-- One row of the hard-assignment `forEach`: append the row to the group whose
id equals `selectedGroupId` (ids are unique, so replacing every match equals the
source's `find` + `push`); with no matching group the row is an orphan —
reported on the console and dropped. -/
def assignRow (gs : List GroupM) (row : MRow) : List GroupM :=
  let sel := selectedGroupId row.vector
  if gs.any fun g => g.id = sel then
    gs.map fun g => if g.id = sel then { g with members := g.members ++ [row] } else g
  else gs

/-- Stage 1 of the optimization: inside the group at position `index`, sort
members ascending by their own membership value for column `index`. -/
def sortMembers (gs : List GroupM) : List GroupM :=
  gs.mapIdx fun index g =>
    { g with
      members := sortStable
        (fun a b => cmpKeyLe (a.vector.getD index Dec.nan) (b.vector.getD index Dec.nan))
        g.members }

/-- One pass of the redistribution `while` body for donor group `i`: rank the
donor's first (lowest-confidence) member's per-cluster values descending, drop
the donor's own index, keep the indices whose group has fewer than `minS`
members — or, when every group has exactly `minS` members, fewer than `maxS` —
and move the member to the first surviving index.  `none` models the `TypeError`
the source raises when the surviving list is empty (it indexes the array with
`undefined`), or when a ranked index is outside the group list (the filter
callback dereferences `undefined`). -/
def moveStep (minS maxS i : ℕ) (gs : List GroupM) : Option (List GroupM) :=
  match (gs.getD i noGroup).members with
  | [] => none
  | m0 :: rest =>
    let pairs := m0.vector.mapIdx fun idx val => (val, idx)
    let theoretical :=
      ((sortStable (fun a b => cmpKeyLe b.1 a.1) pairs).filter fun v => v.2 ≠ i).map
        fun (v : Dec × ℕ) => v.2
    if theoretical.all (· < gs.length) then
      let allMin := gs.all fun g => g.members.length = minS
      let real := theoretical.filter fun idx =>
        decide ((gs.getD idx noGroup).members.length < minS) ||
          (allMin && decide ((gs.getD idx noGroup).members.length < maxS))
      match real with
      | [] => none
      | dest :: _ =>
        some (gs.mapIdx fun j g =>
          if j = dest then { g with members := g.members ++ [m0] }
          else if j = i then { g with members := rest }
          else g)
    else none

/-- Stage 2: the `for i` / `while (length > maxS)` redistribution, fueled (the
fuel only bounds the recursion; callers pass enough for every run that the
source completes, and the theorems about success results hold for any fuel). -/
def redis (minS maxS : ℕ) : ℕ → ℕ → List GroupM → Option (List GroupM)
  | 0, _, _ => none
  | fuel + 1, i, gs =>
    if i < gs.length then
      if maxS < (gs.getD i noGroup).members.length then
        match moveStep minS maxS i gs with
        | none => none
        | some gs1 => redis minS maxS fuel i gs1
      else redis minS maxS fuel (i + 1) gs
    else some gs

/-- Model of `FuzzyCMeans.formGroups`: groups from the cluster centers (ids `1..k`,
sorted by id — already ascending by construction), hard assignment of every
matrix row, the balancing targets `minS = floor(N/k)`, `maxS = ceil(N/k)`
(`N` the matrix length, `k` the group count), the stage-1 sort and the
redistribution.  `none` models the run crashing in redistribution. -/
def formGroups (st : FCMState) : Option (List GroupM) :=
  let composed := sortStable (fun a b => decide (a.id ≤ b.id))
    (st.centers.mapIdx fun i c => ⟨i + 1, c, []⟩)
  let assigned := st.mat.foldl assignRow composed
  let minS := st.mat.length / st.groupNum
  let maxS := (st.mat.length + st.groupNum - 1) / st.groupNum
  let sorted := sortMembers assigned
  redis minS maxS (st.mat.length * sorted.length + sorted.length + 1) 0 sorted

/-! ## Constructor -/

/-- Model of `generateRandomUniformVector`: the drawn bytes, each divided by their sum.
The `pseudoRandomBytes` source is modelled as the explicit `bytes` argument. -/
def generateRandomUniformVector (bytes : List ℚ) : List Dec :=
  let s := Dec.sum1 (bytes.map Dec.fin)
  bytes.map fun v => Dec.div (Dec.fin v) s

/-- The `FuzzyCMeans` constructor's matrix initialization: row `i` takes
`initialVectors[i]` verbatim whenever `initialVectors` is non-null and its
entry `i` is a present (truthy) array — with no validation of its length or
sum — and otherwise a freshly generated random uniform vector (`randomBytes i`
standing for the `i`-th draw of `pseudoRandomBytes groupNum`). -/
def initMat (population : List PersonM) (_groupNum : ℕ)
    (initialVectors : Option (List (Option (List Dec)))) (randomBytes : ℕ → List ℚ) :
    List MRow :=
  population.mapIdx fun i p =>
    { person := p
      vector :=
        match initialVectors with
        | none => generateRandomUniformVector (randomBytes i)
        | some ivs =>
          match ivs.getD i none with
          | some v => v
          | none => generateRandomUniformVector (randomBytes i) }

/-- The rest of the constructor: `_mass = 2`, `_clusterCenter` empty (a JS
`new Array(groupNum)` of holes), `_objectiveValue = 0`. -/
def mkFCM (population : List PersonM) (groupNum : ℕ)
    (initialVectors : Option (List (Option (List Dec)))) (randomBytes : ℕ → List ℚ) :
    FCMState :=
  { mat := initMat population groupNum initialVectors randomBytes
    groupNum := groupNum
    centers := []
    objectiveValue := Dec.fin 0
    mass := 2 }

/-! ## Loop structure lemmas -/

/-- Lemma: `seqState` peels one non-converged step off the front. -/
theorem seqState_succ (st : FCMState) (n : ℕ) :
    seqState st (n + 1) = seqState (stepNC st) n := by
  simp [seqState, Function.iterate_succ_apply]

/-- Lemma: `convAt` after one non-converged step is `convAt` one iteration later. -/
theorem convAt_shift (mi : Dec) (st : FCMState) (n : ℕ) :
    convAt mi (stepNC st) n = convAt mi st (n + 1) := by
  simp [convAt, seqState_succ]

/-- Unfolding of one `while` round: test the freshly computed objective, stop
keeping the new partition, or store the objective and continue. -/
theorem buildLoop_succ (mi : Dec) (fuel : ℕ) (st : FCMState) :
    buildLoop mi (fuel + 1) st =
      if convAt mi st 0 = true then (iterOnce st).1
      else buildLoop mi fuel (stepNC st) := by
  simp only [buildLoop, convAt, seqState, Function.iterate_zero, id, stepNC]

/-- Full characterization of the `buildModel` loop, used by the per-claim
theorems below: with no convergence in the first `fuel` iterations the loop
runs them all and returns the resulting state; with a first convergence at
iteration `n < fuel` it returns that iteration's freshly computed partition
(with the objective field untouched). -/
theorem buildLoopCharacter (mi : Dec) (fuel : ℕ) : ∀ st : FCMState,
    ((∀ k, k < fuel → convAt mi st k = false) → buildLoop mi fuel st = seqState st fuel) ∧
    (∀ n, n < fuel → convAt mi st n = true → (∀ k, k < n → convAt mi st k = false) →
      buildLoop mi fuel st = (iterOnce (seqState st n)).1) := by
  induction fuel with
  | zero =>
    intro st
    refine ⟨fun _ => rfl, fun n hn => absurd hn (Nat.not_lt_zero n)⟩
  | succ fuel ih =>
    intro st
    constructor
    · intro h
      rw [buildLoop_succ]
      have h0 := h 0 (Nat.succ_pos fuel)
      rw [if_neg (by simp [h0])]
      have hrec := (ih (stepNC st)).1
        (fun k hk => by rw [convAt_shift]; exact h (k + 1) (Nat.succ_lt_succ hk))
      rw [hrec, ← seqState_succ]
    · intro n hn hc hf
      rw [buildLoop_succ]
      cases n with
      | zero =>
        rw [if_pos hc]
        simp [seqState]
      | succ m =>
        have h0 := hf 0 (Nat.succ_pos m)
        rw [if_neg (by simp [h0])]
        have hrec := (ih (stepNC st)).2 m (Nat.lt_of_succ_lt_succ hn)
          (by rw [convAt_shift]; exact hc)
          (fun k hk => by rw [convAt_shift]; exact hf (k + 1) (Nat.succ_lt_succ hk))
        rw [hrec, ← seqState_succ]

/-- Claim C5: the `buildModel` loop stops exactly at the first iteration `n`
whose fresh objective satisfies `|J_new - J_prev| < minImprovement` (keeping
that iteration's newly computed matrix and centers, `(iterOnce _).1`);
at every earlier iteration it stores the new objective and continues
(`stepNC`, iterated in `seqState`); and when no iteration up to the
`maxIteration` budget converges the loop simply returns the state reached —
an accepted outcome, not an error (the loop is a total function). -/
theorem buildLoop_stops_at_first_convergence (mi : Dec) (fuel : ℕ) (st : FCMState) :
    ((∀ k, k < fuel → convAt mi st k = false) → buildLoop mi fuel st = seqState st fuel) ∧
    (∀ n, n < fuel → convAt mi st n = true → (∀ k, k < n → convAt mi st k = false) →
      buildLoop mi fuel st = (iterOnce (seqState st n)).1) :=
  buildLoopCharacter mi fuel st

/-! ### Concrete scenario: two one-dimensional-ish entities, one cluster.
The run converges at the second iteration with every arithmetic step exact. -/

/-- Scenario person at the origin. -/
def personOrigin : PersonM := ⟨1, [0, 0, 0, 0]⟩

/-- Scenario person at distance 2 from the origin on the first trait. -/
def personAway : PersonM := ⟨2, [2, 0, 0, 0]⟩

/-- Two entities, one cluster, both fully assigned to it. -/
def twoPointState : FCMState :=
  { mat := [⟨personOrigin, [Dec.fin 1]⟩, ⟨personAway, [Dec.fin 1]⟩]
    groupNum := 1
    centers := []
    objectiveValue := Dec.fin 0
    mass := 2 }

unseal Rat.add Rat.mul Rat.inv Rat.sub in
/-- Claim C5 witness: on the concrete two-entity run with
`minImprovement = 1/2` and `maxIteration = 5`, iteration 0 does not converge,
iteration 1 does, and the loop indeed returns iteration 1's fresh partition. -/
theorem buildLoop_stops_at_first_convergence_witness :
    buildLoop (Dec.fin (1/2)) 5 twoPointState =
      (iterOnce (seqState twoPointState 1)).1 :=
  (buildLoop_stops_at_first_convergence (Dec.fin (1/2)) 5 twoPointState).2 1
    (by decide) (by decide) (by decide)

/-- Claim C9 (amended): when the loop stops through the convergence test at
iteration `n`, the stored objective of the returned state is exactly the
objective stored *before* that final iteration (`J_prev`); the freshly
computed `J_new` that triggered the stop is never written back. -/
theorem converged_objective_is_previous (mi : Dec) (fuel n : ℕ) (st : FCMState)
    (hn : n < fuel) (hc : convAt mi st n = true)
    (hf : ∀ k, k < n → convAt mi st k = false) :
    (buildLoop mi fuel st).objectiveValue = (seqState st n).objectiveValue := by
  rw [(buildLoopCharacter mi fuel st).2 n hn hc hf]
  rfl

unseal Rat.add Rat.mul Rat.inv Rat.sub in
/-- Claim C9 witness: the two-entity run converges at iteration 1 and keeps as
stored objective the value written by iteration 0. -/
theorem converged_objective_is_previous_witness :
    (buildLoop (Dec.fin (1/2)) 5 twoPointState).objectiveValue =
      (seqState twoPointState 1).objectiveValue :=
  converged_objective_is_previous (Dec.fin (1/2)) 5 1 twoPointState
    (by decide) (by decide) (by decide)

unseal Rat.add Rat.mul Rat.inv Rat.sub in
/-- Claim C9 counterexample to the claim's final clause ("after a converged run
`objectiveValue` is *not* the objective of the final partition matrix"): the
two-entity run reaches an exact fixed point, converges there (at iteration 1,
within the 5-iteration budget), and the stored objective `2` *is* exactly the
objective of the returned partition matrix and centers. -/
theorem converged_objective_can_equal_final_objective :
    convAt (Dec.fin (1/2)) twoPointState 1 = true ∧
    convAt (Dec.fin (1/2)) twoPointState 0 = false ∧
    (buildLoop (Dec.fin (1/2)) 5 twoPointState).objectiveValue = Dec.fin 2 ∧
    objectiveOf (buildLoop (Dec.fin (1/2)) 5 twoPointState).mass
        (buildLoop (Dec.fin (1/2)) 5 twoPointState).centers
        (buildLoop (Dec.fin (1/2)) 5 twoPointState).mat = Dec.fin 2 := by
  decide

/-- Claim C4: `buildModel` fails (with an error, before any iteration — the
error branches are taken before the loop expression) exactly when
`mass ≤ 1` or `minImprovement` lies outside the open interval `(0,1)`; the
equivalence holds for every state and iteration budget, showing the check is
independent of the model contents; and with `mass = 3/2`,
`minImprovement = 1/2` it always succeeds. -/
theorem buildModel_validation (st : FCMState) (maxIteration : ℕ) (mi mass : ℚ) :
    ((∃ e, buildModel st maxIteration (Dec.fin mi) mass = .error e) ↔
      (mass ≤ 1 ∨ mi ≤ 0 ∨ 1 ≤ mi)) ∧
    (∃ st', buildModel st maxIteration (Dec.fin (1/2)) (3/2) = .ok st') := by
  have hval : ∀ mi' : ℚ,
      (Dec.ltB (Dec.fin 0) (Dec.fin mi') && Dec.ltB (Dec.fin mi') (Dec.fin 1)) = true ↔
        (0 < mi' ∧ mi' < 1) := by
    intro mi'
    simp [Dec.ltB]
  constructor
  · constructor
    · rintro ⟨e, he⟩
      by_contra hcon
      push_neg at hcon
      obtain ⟨hm, hmi0, hmi1⟩ := hcon
      unfold buildModel at he
      rw [if_pos ((hval mi).mpr ⟨hmi0, hmi1⟩), if_pos hm] at he
      exact absurd he (by simp)
    · intro h
      by_cases hmi : 0 < mi ∧ mi < 1
      · have hm : mass ≤ 1 := by
          rcases h with h | h | h
          · exact h
          · exact absurd hmi.1 (not_lt.mpr h)
          · exact absurd hmi.2 (not_lt.mpr h)
        refine ⟨"Mass must be greater than 1", ?_⟩
        unfold buildModel
        rw [if_pos ((hval mi).mpr hmi), if_neg (not_lt.mpr hm)]
      · refine ⟨"Minimum improvement must be greater than 0 and lower than 1", ?_⟩
        unfold buildModel
        rw [if_neg (fun hc => hmi ((hval mi).mp hc))]
  · refine ⟨buildLoop (Dec.fin (1/2)) maxIteration { st with mass := 3/2 }, ?_⟩
    unfold buildModel
    rw [if_pos ((hval (1/2)).mpr (by norm_num)), if_pos (by norm_num)]

/-! ### Degenerate-distance scenario (claim C2): a single entity whose feature
vector coincides with the single cluster center. -/

/-- Scenario person with all traits 1. -/
def personUnit : PersonM := ⟨1, [1, 1, 1, 1]⟩

/-- One entity, one cluster: the center update necessarily reproduces the
entity's own vector, so the iteration's distance is exactly 0. -/
def degenerateState : FCMState :=
  { mat := [⟨personUnit, [Dec.fin 1]⟩]
    groupNum := 1
    centers := []
    objectiveValue := Dec.fin 0
    mass := 2 }

unseal Rat.add Rat.mul Rat.inv Rat.sub in
/-- Claim C2: at the degenerate input the iteration's actual distance matrix
is `[[0]]`; feeding that very matrix to the membership update computes
`0^(-2) / 0 = Infinity` — the code has no zero-distance special case — and the
iteration's normalization then turns the row into `[NaN]`
(`Infinity / Infinity`), not into the claimed `[1.0]`.  All values involved
are `decimal.js` special-value rules, exact and independent of the library's
rounding precision. -/
theorem degenerate_distance_produces_nan :
    distanceMatrix (clusterCenters 2 1 degenerateState.mat) degenerateState.mat
        = [[Dec.fin 0]] ∧
    updateMat 2 (distanceMatrix (clusterCenters 2 1 degenerateState.mat) degenerateState.mat)
        degenerateState.mat = [⟨personUnit, [Dec.inf]⟩] ∧
    (iterOnce degenerateState).1.mat = [⟨personUnit, [Dec.nan]⟩] ∧
    [Dec.nan] ≠ [Dec.fin 1] := by
  decide

/-! ### Membership update (claim C1) -/

/-- Entry formula of the membership update, proved once and reused: entry
`(i, j)` of `updateMat` is
`D[j][i] ^ (-2/(m-1)) / Σ_k D[k][j]` — unpowered denominator terms, indexed at
the cluster index `j`. -/
theorem updateMat_entry_aux (m : ℚ) (D : List (List Dec)) (mat : List MRow) (i j : ℕ)
    (hi : i < mat.length) (hj : j < (mat.getD i noRow).vector.length) :
    ((updateMat m D mat).getD i noRow).vector.getD j Dec.nan =
      Dec.div
        (Dec.pow ((D.getD j []).getD i Dec.nan) (Dec.div (Dec.fin (-2)) (Dec.fin (m - 1))))
        (Dec.sum1 (D.map fun drow => drow.getD j Dec.nan)) := by
  have hj' : j < mat[i].vector.length := by
    rwa [List.getD_eq_getElem _ _ hi] at hj
  unfold updateMat
  simp only [List.getD_eq_getElem, List.length_map, List.length_range, hi, hj',
    List.getElem_map, List.getElem_range]

/-- Modelled from the spec's own words, for comparison only (claim C1):
`membership[e,j] = distance(j,e)^(-2/(m-1)) / Σ_k distance(k,e)^(-2/(m-1))`,
with the distances taken from the given distance matrix `D`. -/
def specMembership (m : ℚ) (D : List (List Dec)) (e j : ℕ) : Dec :=
  Dec.div
    (Dec.pow ((D.getD j []).getD e Dec.nan) (Dec.div (Dec.fin (-2)) (Dec.fin (m - 1))))
    (Dec.sum1 (D.map fun drow =>
      Dec.pow (drow.getD e Dec.nan) (Dec.div (Dec.fin (-2)) (Dec.fin (m - 1)))))

/-- Scenario person at the origin (two-cluster run). -/
def personZero : PersonM := ⟨1, [0, 0, 0, 0]⟩

/-- Scenario person six units away on the first trait (two-cluster run). -/
def personSix : PersonM := ⟨2, [6, 0, 0, 0]⟩

/-- A two-entity, two-cluster partition matrix whose first FCM iteration has
exactly representable centers `(3/5,0,0,0)`, `(27/5,0,0,0)` and distances
`3/5` and `27/5`. -/
def matTwoClusters : List MRow :=
  [⟨personZero, [Dec.fin (3/4), Dec.fin (1/4)]⟩,
   ⟨personSix, [Dec.fin (1/4), Dec.fin (3/4)]⟩]

/-- The first iteration's distance matrix of the two-cluster scenario. -/
def distTwoClusters : List (List Dec) :=
  distanceMatrix (clusterCenters 2 2 matTwoClusters) matTwoClusters

unseal Rat.add Rat.mul Rat.inv Rat.sub in
set_option maxRecDepth 8000 in
/-- Claim C1 counterexample: on the two-cluster scenario's first iteration the
distance matrix is `[[3/5, 27/5], [27/5, 3/5]]`; the code's membership update
writes `u[0][0] = (3/5)^(-2) / (3/5 + 27/5) = 25/54`, while the spec's formula
`distance(j,e)^(-2/(m-1)) / Σ_k distance(k,e)^(-2/(m-1))` gives `81/82`. -/
theorem membership_update_deviates_from_spec :
    distTwoClusters = [[Dec.fin (3/5), Dec.fin (27/5)], [Dec.fin (27/5), Dec.fin (3/5)]] ∧
    ((updateMat 2 distTwoClusters matTwoClusters).getD 0 noRow).vector.getD 0 Dec.nan =
      Dec.fin (25/54) ∧
    specMembership 2 distTwoClusters 0 0 = Dec.fin (81/82) ∧
    Dec.fin (25/54) ≠ Dec.fin (81/82) := by
  decide

/-- Claim C1 (amended): for every iteration's distance matrix `D` and every
in-range entity `i` and cluster `j`, the membership update writes
`u[i][j] = D[j][i]^(-2/(m-1)) / Σ_k D[k][j]`: the numerator is as the spec
says, but the denominator sums the *unpowered* distances and indexes every
distance row at the cluster index `j` (as if `j` were an entity index), not at
the entity index `i`; the spec's formula holds only in the separate
`specMembership` reading. -/
theorem membership_update_actual_formula (m : ℚ) (D : List (List Dec)) (mat : List MRow)
    (i j : ℕ) (hi : i < mat.length) (hj : j < (mat.getD i noRow).vector.length) :
    ((updateMat m D mat).getD i noRow).vector.getD j Dec.nan =
      Dec.div
        (Dec.pow ((D.getD j []).getD i Dec.nan) (Dec.div (Dec.fin (-2)) (Dec.fin (m - 1))))
        (Dec.sum1 (D.map fun drow => drow.getD j Dec.nan)) :=
  updateMat_entry_aux m D mat i j hi hj

unseal Rat.add Rat.mul Rat.inv Rat.sub in
/-- Claim C1 witness: the amended formula applied at the concrete two-cluster
scenario, entity 0 and cluster 0. -/
theorem membership_update_actual_formula_witness :
    ((updateMat 2 distTwoClusters matTwoClusters).getD 0 noRow).vector.getD 0 Dec.nan =
      Dec.div
        (Dec.pow ((distTwoClusters.getD 0 []).getD 0 Dec.nan)
          (Dec.div (Dec.fin (-2)) (Dec.fin (2 - 1))))
        (Dec.sum1 (distTwoClusters.map fun drow => drow.getD 0 Dec.nan)) :=
  membership_update_actual_formula 2 distTwoClusters matTwoClusters 0 0
    (by decide) (by decide)

/-! ### Normalization invariant (claim C6) -/

/-- The value is a strictly positive finite decimal. -/
def Dec.posFinB : Dec → Bool
  | Dec.fin q => decide (0 < q)
  | _ => false

/-- The value is a finite decimal in `[0, 1]`. -/
def Dec.inUnitB : Dec → Bool
  | Dec.fin q => decide (0 ≤ q ∧ q ≤ 1)
  | _ => false

/-- The value is a finite decimal that is an integer. -/
def Dec.isIntB : Dec → Bool
  | Dec.fin e => decide (e.den = 1)
  | _ => false

/-- Destructor for `posFinB`. -/
theorem of_posFinB {d : Dec} (h : Dec.posFinB d = true) :
    ∃ q : ℚ, d = Dec.fin q ∧ 0 < q := by
  cases d with
  | fin q => exact ⟨q, rfl, by simpa [Dec.posFinB] using h⟩
  | inf => simp [Dec.posFinB] at h
  | ninf => simp [Dec.posFinB] at h
  | nan => simp [Dec.posFinB] at h

/-- Lemma: `powInt` on a nonzero rational base and nonzero exponent is plain `zpow`. -/
theorem powInt_fin {q : ℚ} (hq : q ≠ 0) {n : ℤ} (hn : n ≠ 0) :
    Dec.powInt (Dec.fin q) n = Dec.fin (q ^ n) := by
  unfold Dec.powInt
  rw [if_neg hn]
  show (if q = 0 then (if 0 < n then Dec.fin 0 else Dec.inf) else Dec.fin (q ^ n)) = _
  rw [if_neg hq]

/-- A positive finite base raised to an integral finite exponent stays a
positive finite decimal. -/
theorem posFinB_pow {x e : Dec} (hx : Dec.posFinB x = true) (he : Dec.isIntB e = true) :
    Dec.posFinB (Dec.pow x e) = true := by
  obtain ⟨q, rfl, hq⟩ := of_posFinB hx
  cases e with
  | fin ez =>
    have hden : ez.den = 1 := by simpa [Dec.isIntB] using he
    by_cases h0 : ez = 0
    · simp [Dec.pow, h0, Dec.posFinB]
    · have hnum : ez.num ≠ 0 := Rat.num_ne_zero.mpr h0
      simp only [Dec.pow, if_neg h0, hden, if_pos rfl,
        powInt_fin (ne_of_gt hq) hnum, Dec.posFinB]
      exact decide_eq_true (zpow_pos hq ez.num)
  | inf => simp [Dec.isIntB] at he
  | ninf => simp [Dec.isIntB] at he
  | nan => simp [Dec.isIntB] at he

/-- Addition preserves positive finite decimals. -/
theorem posFinB_add {a b : Dec} (ha : Dec.posFinB a = true) (hb : Dec.posFinB b = true) :
    Dec.posFinB (Dec.add a b) = true := by
  obtain ⟨q, rfl, hq⟩ := of_posFinB ha
  obtain ⟨r, rfl, hr⟩ := of_posFinB hb
  simpa [Dec.add, Dec.posFinB] using add_pos hq hr

/-- Division of positive finite decimals is a positive finite decimal. -/
theorem posFinB_div {a b : Dec} (ha : Dec.posFinB a = true) (hb : Dec.posFinB b = true) :
    Dec.posFinB (Dec.div a b) = true := by
  obtain ⟨q, rfl, hq⟩ := of_posFinB ha
  obtain ⟨r, rfl, hr⟩ := of_posFinB hb
  simp only [Dec.div, if_neg (ne_of_gt hr), Dec.posFinB]
  exact decide_eq_true (div_pos hq hr)

/-- Folding `Decimal.plus` from a positive finite seed over positive finite
decimals stays positive finite. -/
theorem posFinB_foldl_add (t : List Dec) : ∀ a : Dec, Dec.posFinB a = true →
    (∀ v ∈ t, Dec.posFinB v = true) → Dec.posFinB (t.foldl Dec.add a) = true := by
  induction t with
  | nil => intro a ha _; exact ha
  | cons b t ih =>
    intro a ha ht
    show Dec.posFinB (t.foldl Dec.add (Dec.add a b)) = true
    exact ih (Dec.add a b) (posFinB_add ha (ht b (List.mem_cons_self b t)))
      (fun v hv => ht v (List.mem_cons_of_mem b hv))

/-- The source's seedless `reduce` sum of positive finite decimals is a
positive finite decimal. -/
theorem posFinB_sum1 (l : List Dec) (hne : l ≠ []) (h : ∀ v ∈ l, Dec.posFinB v = true) :
    Dec.posFinB (Dec.sum1 l) = true := by
  cases l with
  | nil => exact absurd rfl hne
  | cons a t =>
    show Dec.posFinB (t.foldl Dec.add a) = true
    exact posFinB_foldl_add t a (h a (List.mem_cons_self a t))
      (fun v hv => h v (List.mem_cons_of_mem a hv))

/-- A list of positive finite decimals is the `fin` image of a list of
positive rationals. -/
theorem exists_map_fin (l : List Dec) (h : ∀ v ∈ l, Dec.posFinB v = true) :
    ∃ qs : List ℚ, l = qs.map Dec.fin ∧ ∀ q ∈ qs, 0 < q := by
  induction l with
  | nil => exact ⟨[], rfl, by simp⟩
  | cons a t ih =>
    obtain ⟨q, rfl, hq⟩ := of_posFinB (h a (List.mem_cons_self a t))
    obtain ⟨qs, rfl, hqs⟩ := ih (fun v hv => h v (List.mem_cons_of_mem _ hv))
    refine ⟨q :: qs, rfl, fun r hr => ?_⟩
    rcases List.mem_cons.mp hr with rfl | hr
    · exact hq
    · exact hqs r hr

/-- Folding `Decimal.plus` over the `fin` image of rationals is rational
addition. -/
theorem foldl_add_map_fin (t : List ℚ) : ∀ a : ℚ,
    (t.map Dec.fin).foldl Dec.add (Dec.fin a) = Dec.fin (a + t.sum) := by
  induction t with
  | nil => intro a; simp
  | cons q t ih =>
    intro a
    show (t.map Dec.fin).foldl Dec.add (Dec.add (Dec.fin a) (Dec.fin q)) = _
    rw [show Dec.add (Dec.fin a) (Dec.fin q) = Dec.fin (a + q) from rfl, ih]
    rw [List.sum_cons, add_assoc]

/-- Lemma: `sum1` of the `fin` image of a nonempty rational list is its sum. -/
theorem sum1_map_fin (qs : List ℚ) (h : qs ≠ []) :
    Dec.sum1 (qs.map Dec.fin) = Dec.fin qs.sum := by
  cases qs with
  | nil => exact absurd rfl h
  | cons q t =>
    show (t.map Dec.fin).foldl Dec.add (Dec.fin q) = _
    rw [foldl_add_map_fin, List.sum_cons]

/-- Distributing a division over a list sum. -/
theorem sum_map_div (qs : List ℚ) (S : ℚ) :
    (qs.map fun q => q / S).sum = qs.sum / S := by
  induction qs with
  | nil => simp
  | cons q t ih => simp [add_div, ih]

/-- The length of the updated matrix. -/
theorem updateMat_length (m : ℚ) (D : List (List Dec)) (mat : List MRow) :
    (updateMat m D mat).length = mat.length := by
  unfold updateMat
  simp

/-- Claim C6 (amended): after the normalization step of any iteration whose
pre-normalization membership rows hold only positive finite values — which is
the case for *every* mass, integral or fractional, whenever no distance of the
iteration is zero, since the update divides (possibly rounded) positive powers
by positive sums — every membership row has all components in `[0,1]` and sums
to 1 within the claimed `1e-9` tolerance.  (The exact-rational model lands
exactly on 1; `decimal.js`'s 20-significant-digit rounding of each quotient
stays many orders of magnitude inside the tolerance.)  In the degenerate
zero-distance case the row instead becomes `NaN` and the invariant fails — see
the counterexample. -/
theorem normalized_rows_in_unit_sum_one (mat : List MRow)
    (hpos : ∀ row ∈ mat, row.vector ≠ [] ∧ ∀ v ∈ row.vector, Dec.posFinB v = true) :
    ∀ row ∈ normalizeMat mat,
      Dec.ltB (Dec.dabs (Dec.sub (Dec.sum1 row.vector) (Dec.fin 1)))
        (Dec.fin (1 / 1000000000)) = true ∧
      ∀ v ∈ row.vector, Dec.inUnitB v = true := by
  intro row hrow
  obtain ⟨row0, hrow0, rfl⟩ := List.mem_map.mp hrow
  obtain ⟨hne0, hpos0⟩ := hpos row0 hrow0
  obtain ⟨qs, hqs, hqspos⟩ := exists_map_fin _ hpos0
  have hqsne : qs ≠ [] := by
    intro hnil
    rw [hqs, hnil] at hne0
    exact hne0 rfl
  have hS : (0 : ℚ) < qs.sum := List.sum_pos qs hqspos hqsne
  have hSne : qs.sum ≠ 0 := ne_of_gt hS
  have hmapdiv : row0.vector.map (fun v => Dec.div v (Dec.sum1 row0.vector)) =
      (qs.map fun q => q / qs.sum).map Dec.fin := by
    rw [hqs, sum1_map_fin qs hqsne, List.map_map, List.map_map]
    refine List.map_congr_left fun q _ => ?_
    show Dec.div (Dec.fin q) (Dec.fin qs.sum) = Dec.fin (q / qs.sum)
    simp [Dec.div, hSne]
  have hsum : Dec.sum1 (row0.vector.map fun v => Dec.div v (Dec.sum1 row0.vector)) =
      Dec.fin 1 := by
    rw [hmapdiv, sum1_map_fin _ (by simpa using hqsne), sum_map_div, div_self hSne]
  constructor
  · show Dec.ltB
      (Dec.dabs (Dec.sub
        (Dec.sum1 (row0.vector.map fun v => Dec.div v (Dec.sum1 row0.vector)))
        (Dec.fin 1)))
      (Dec.fin (1 / 1000000000)) = true
    rw [hsum]
    show Dec.ltB (Dec.dabs (Dec.fin (1 + -1))) (Dec.fin (1 / 1000000000)) = true
    norm_num [Dec.dabs, Dec.ltB]
  · intro v hv
    show Dec.inUnitB v = true
    have hv2 : v ∈ row0.vector.map (fun v => Dec.div v (Dec.sum1 row0.vector)) := hv
    rw [hmapdiv] at hv2
    obtain ⟨x, hx, rfl⟩ := List.mem_map.mp hv2
    obtain ⟨q, hq, rfl⟩ := List.mem_map.mp hx
    have h0 : 0 < q := hqspos q hq
    have hle : q ≤ qs.sum := List.single_le_sum (fun x hx => le_of_lt (hqspos x hx)) q hq
    simp only [Dec.inUnitB, decide_eq_true_eq]
    exact ⟨le_of_lt (div_pos h0 hS), (div_le_one hS).mpr hle⟩

/-- Single-row matrix whose (pre-normalization) membership entries are `1/4`
and `1/4`, used as the C6 witness input. -/
def matHalves : List MRow := [⟨personUnit, [Dec.fin (1/4), Dec.fin (1/4)]⟩]

unseal Rat.add Rat.mul Rat.inv Rat.sub in
/-- Claim C6 witness: the amended invariant applied to the one-entity input
with pre-normalization row `[1/4, 1/4]`, at its normalized row `[1/2, 1/2]`
and entry `1/2`. -/
theorem normalized_rows_in_unit_sum_one_witness :
    Dec.ltB
      (Dec.dabs (Dec.sub
        (Dec.sum1 (MRow.mk personUnit [Dec.fin (1/2), Dec.fin (1/2)]).vector)
        (Dec.fin 1)))
      (Dec.fin (1 / 1000000000)) = true ∧
    Dec.inUnitB (Dec.fin (1/2)) = true :=
  ⟨(normalized_rows_in_unit_sum_one matHalves (by decide)
      (MRow.mk personUnit [Dec.fin (1/2), Dec.fin (1/2)]) (by decide)).1,
   (normalized_rows_in_unit_sum_one matHalves (by decide)
      (MRow.mk personUnit [Dec.fin (1/2), Dec.fin (1/2)]) (by decide)).2
     (Dec.fin (1/2)) (by decide)⟩

/-- Scenario person with all traits 2 (C6 degenerate counterexample). -/
def personTwos : PersonM := ⟨1, [2, 2, 2, 2]⟩

/-- One entity, one cluster — the iteration's only distance is 0. -/
def degenerateState2 : FCMState :=
  { mat := [⟨personTwos, [Dec.fin 1]⟩]
    groupNum := 1
    centers := []
    objectiveValue := Dec.fin 0
    mass := 2 }

unseal Rat.add Rat.mul Rat.inv Rat.sub in
/-- Claim C6 counterexample: on the degenerate one-entity iteration the
normalized membership row is `[NaN]` — its components are not in `[0,1]` and
its sum is `NaN`, which is not within `1e-9` of 1 (nor within any
tolerance). -/
theorem normalization_fails_on_degenerate_iteration :
    ((iterOnce degenerateState2).1.mat.getD 0 noRow).vector = [Dec.nan] ∧
    Dec.sum1 ((iterOnce degenerateState2).1.mat.getD 0 noRow).vector = Dec.nan ∧
    Dec.ltB (Dec.dabs (Dec.sub Dec.nan (Dec.fin 1))) (Dec.fin (1 / 1000000000)) = false ∧
    Dec.nan ≠ Dec.fin 1 ∧ Dec.inUnitB Dec.nan = false := by
  decide

/-! ### Constructor verbatim seeding (claim C10) -/

/-- Claim C10: for every population, every supplied `initialVectors` and every
in-range row `i`, the constructor pairs row `i` with its person and installs
`initialVectors[i]` itself whenever that entry is present — with no check of
its length or of its sum, and no error (the constructor is total) — and falls
back to the generated random uniform vector exactly when the entry is
missing. -/
theorem constructor_uses_initial_vectors_verbatim
    (population : List PersonM) (groupNum : ℕ) (ivs : List (Option (List Dec)))
    (randomBytes : ℕ → List ℚ) (i : ℕ) (hi : i < population.length) :
    ((mkFCM population groupNum (some ivs) randomBytes).mat.getD i noRow).person
        = population.getD i ⟨0, []⟩ ∧
    (∀ v, ivs.getD i none = some v →
      ((mkFCM population groupNum (some ivs) randomBytes).mat.getD i noRow).vector = v) ∧
    (ivs.getD i none = none →
      ((mkFCM population groupNum (some ivs) randomBytes).mat.getD i noRow).vector
        = generateRandomUniformVector (randomBytes i)) := by
  have hmat : (mkFCM population groupNum (some ivs) randomBytes).mat.getD i noRow =
      { person := population.getD i ⟨0, []⟩
        vector :=
          match ivs.getD i none with
          | some v => v
          | none => generateRandomUniformVector (randomBytes i) } := by
    show (initMat population groupNum (some ivs) randomBytes).getD i noRow = _
    unfold initMat
    rw [List.getD_eq_getElem _ _ (by simp only [List.length_mapIdx]; exact hi)]
    simp only [List.mapIdx_eq_enum_map, List.getElem_map, List.getElem_enum]
    rw [List.getD_eq_getElem _ _ hi]
    rfl
  refine ⟨by rw [hmat], fun v hv => ?_, fun hn => ?_⟩
  · rw [hmat]
    show (match ivs.getD i none with
      | some w => w
      | none => generateRandomUniformVector (randomBytes i)) = v
    rw [hv]
  · rw [hmat]
    show (match ivs.getD i none with
      | some w => w
      | none => generateRandomUniformVector (randomBytes i)) =
        generateRandomUniformVector (randomBytes i)
    rw [hn]

/-- Claim C10 witness: a two-person population with one supplied vector of the
wrong length (3 entries for `groupNum = 2`) not summing to 1 — installed
verbatim — and one missing entry — falling back to the random draw. -/
theorem constructor_uses_initial_vectors_verbatim_witness :
    ((mkFCM [personUnit, personTwos] 2
        (some [some [Dec.fin 5, Dec.fin 7, Dec.fin 9], none])
        (fun _ => [1, 3])).mat.getD 0 noRow).person = personUnit ∧
    ((mkFCM [personUnit, personTwos] 2
        (some [some [Dec.fin 5, Dec.fin 7, Dec.fin 9], none])
        (fun _ => [1, 3])).mat.getD 0 noRow).vector = [Dec.fin 5, Dec.fin 7, Dec.fin 9] := by
  have h := constructor_uses_initial_vectors_verbatim [personUnit, personTwos] 2
    [some [Dec.fin 5, Dec.fin 7, Dec.fin 9], none] (fun _ => [1, 3]) 0 (by decide)
  exact ⟨h.1, h.2.1 [Dec.fin 5, Dec.fin 7, Dec.fin 9] rfl⟩

/-! ### Hard assignment (claim C8) -/

/-- One step of the selection scan. -/
theorem selGo_cons (v : Dec) (t : List Dec) (maxV : Dec) (sel i : ℕ) :
    selGo (v :: t) maxV sel i =
      if Dec.ltB maxV v then selGo t v (i + 1) (i + 1) else selGo t maxV sel (i + 1) :=
  rfl

/-- When no remaining value strictly exceeds the running maximum, the scan
keeps the current selection. -/
theorem selGo_no_update (l : List ℚ) : ∀ (maxq : ℚ) (sel i : ℕ),
    (∀ q ∈ l, q ≤ maxq) → selGo (l.map Dec.fin) (Dec.fin maxq) sel i = sel := by
  induction l with
  | nil => intro maxq sel i _; rfl
  | cons a t ih =>
    intro maxq sel i h
    rw [List.map_cons, selGo_cons,
      if_neg (by simpa [Dec.ltB] using not_lt.mpr (h a (List.mem_cons_self a t)))]
    exact ih maxq sel (i + 1) (fun q hq => h q (List.mem_cons_of_mem a hq))

/-- The selection scan started at running maximum `maxq` on a list containing
a value above `maxq` selects `i + t + 1` where `t` is the first index of the
list's maximum; that entry strictly exceeds `maxq` and every earlier entry,
and no entry exceeds it. -/
theorem selGo_finds_first_max (l : List ℚ) : ∀ (maxq : ℚ) (sel i : ℕ),
    (∃ q ∈ l, maxq < q) →
    ∃ t : Fin l.length, selGo (l.map Dec.fin) (Dec.fin maxq) sel i = i + t.val + 1 ∧
      maxq < l.get t ∧ (∀ u : Fin l.length, u.val < t.val → l.get u < l.get t) ∧
      (∀ u : Fin l.length, l.get u ≤ l.get t) := by
  induction l with
  | nil =>
    rintro maxq sel i ⟨q, hq, _⟩
    exact absurd hq (List.not_mem_nil q)
  | cons a rest ih =>
    intro maxq sel i hex
    by_cases hlt : maxq < a
    · rw [List.map_cons, selGo_cons, if_pos (by simpa [Dec.ltB] using hlt)]
      by_cases hex2 : ∃ q ∈ rest, a < q
      · obtain ⟨t, hsel, hgt, hbefore, hmax⟩ := ih a (i + 1) (i + 1) hex2
        refine ⟨⟨t.val + 1, by simp⟩, ?_, ?_, ?_, ?_⟩
        · rw [hsel]
          show i + 1 + t.val + 1 = i + (t.val + 1) + 1
          omega
        · exact lt_trans hlt hgt
        · intro u hu
          match u with
          | ⟨0, _⟩ => exact hgt
          | ⟨u' + 1, hu'⟩ =>
            exact hbefore ⟨u', by simpa using Nat.lt_of_succ_lt_succ hu'⟩
              (by simpa using hu)
        · intro u
          match u with
          | ⟨0, _⟩ => exact le_of_lt hgt
          | ⟨u' + 1, hu'⟩ => exact hmax ⟨u', by simpa using Nat.lt_of_succ_lt_succ hu'⟩
      · push_neg at hex2
        rw [selGo_no_update rest a (i + 1) (i + 1) hex2]
        refine ⟨⟨0, by simp⟩, ?_, hlt, fun u hu => absurd hu (Nat.not_lt_zero _), ?_⟩
        · show i + 1 = i + 0 + 1
          omega
        intro u
        match u with
        | ⟨0, _⟩ => exact le_refl a
        | ⟨u' + 1, hu'⟩ =>
          exact hex2 _ (List.get_mem rest u' (by simpa using Nat.lt_of_succ_lt_succ hu'))
    · rw [List.map_cons, selGo_cons, if_neg (by simpa [Dec.ltB] using hlt)]
      have hex2 : ∃ q ∈ rest, maxq < q := by
        obtain ⟨q, hq, hgt⟩ := hex
        rcases List.mem_cons.mp hq with rfl | hq'
        · exact absurd hgt hlt
        · exact ⟨q, hq', hgt⟩
      obtain ⟨t, hsel, hgt, hbefore, hmax⟩ := ih maxq sel (i + 1) hex2
      have ha : a ≤ maxq := not_lt.mp hlt
      refine ⟨⟨t.val + 1, by simp⟩, ?_, hgt, ?_, ?_⟩
      · rw [hsel]
        show i + 1 + t.val + 1 = i + (t.val + 1) + 1
        omega
      · intro u hu
        match u with
        | ⟨0, _⟩ => exact lt_of_le_of_lt ha hgt
        | ⟨u' + 1, hu'⟩ =>
          exact hbefore ⟨u', by simpa using Nat.lt_of_succ_lt_succ hu'⟩ (by simpa using hu)
      · intro u
        match u with
        | ⟨0, _⟩ => exact le_of_lt (lt_of_le_of_lt ha hgt)
        | ⟨u' + 1, hu'⟩ => exact hmax ⟨u', by simpa using Nat.lt_of_succ_lt_succ hu'⟩

/-- Claim C8: for a membership row of finite values at least one of which is
positive (any normalized row), the hard-assignment scan selects `t + 1` where
`t` is the first index holding the row's strictly greatest value (earlier
entries are strictly smaller, no entry is larger); and on a group list with
ids `1..k` (`k` at least the row width) the row is appended to exactly that
group's member list, every other group being left unchanged. -/
theorem hard_assignment_appends_to_first_argmax (row : MRow) (qs : List ℚ)
    (gs : List GroupM)
    (hrow : row.vector = qs.map Dec.fin)
    (hpos : ∃ q ∈ qs, 0 < q)
    (hids : ∀ p, (hp : p < gs.length) → (gs.get ⟨p, hp⟩).id = p + 1)
    (hlen : qs.length ≤ gs.length) :
    ∃ t : Fin qs.length,
      selectedGroupId row.vector = t.val + 1 ∧
      (∀ u : Fin qs.length, u.val < t.val → qs.get u < qs.get t) ∧
      (∀ u : Fin qs.length, qs.get u ≤ qs.get t) ∧
      ((assignRow gs row).getD t.val noGroup).members =
        (gs.getD t.val noGroup).members ++ [row] ∧
      (∀ p, p < gs.length → p ≠ t.val →
        (assignRow gs row).getD p noGroup = gs.getD p noGroup) := by
  obtain ⟨t, hsel0, _, hbefore, hmax⟩ := selGo_finds_first_max qs 0 0 0 hpos
  have hsel : selectedGroupId row.vector = t.val + 1 := by
    rw [hrow]
    show selGo (qs.map Dec.fin) (Dec.fin 0) 0 0 = t.val + 1
    rw [hsel0]
    omega
  have htg : t.val < gs.length := lt_of_lt_of_le t.isLt hlen
  have hany : (gs.any fun g => g.id = selectedGroupId row.vector) = true := by
    rw [List.any_eq_true]
    refine ⟨gs.get ⟨t.val, htg⟩, List.get_mem gs t.val htg, ?_⟩
    rw [hids t.val htg, hsel]
    simp
  refine ⟨t, hsel, hbefore, hmax, ?_, ?_⟩
  · unfold assignRow
    rw [if_pos hany]
    rw [List.getD_eq_getElem _ _ (by simpa using htg), List.getElem_map]
    rw [List.getD_eq_getElem _ _ htg]
    rw [show gs[t.val] = gs.get ⟨t.val, htg⟩ from rfl, hids t.val htg, hsel]
    simp
  · intro p hp hne
    unfold assignRow
    rw [if_pos hany]
    rw [List.getD_eq_getElem _ _ (by simpa using hp), List.getElem_map]
    rw [List.getD_eq_getElem _ _ hp]
    rw [show gs[p] = gs.get ⟨p, hp⟩ from rfl, hids p hp, hsel]
    rw [if_neg (by omega)]

/-- Concrete membership row for the C8 witness. -/
def rowArgmax : MRow := ⟨personUnit, [Dec.fin (1/4), Dec.fin (1/2), Dec.fin (1/4)]⟩

/-- Concrete three-group list (ids 1..3) for the C8 witness. -/
def gsThree : List GroupM := [⟨1, [], []⟩, ⟨2, [], []⟩, ⟨3, [], []⟩]

unseal Rat.add Rat.mul Rat.inv Rat.sub in
/-- Claim C8 witness: on the row `[1/4, 1/2, 1/4]` with groups `1..3`, the
theorem's conclusion holds (the row goes to group 2, the strict maximum). -/
theorem hard_assignment_appends_to_first_argmax_witness :
    ∃ t : Fin ([1/4, 1/2, 1/4] : List ℚ).length,
      selectedGroupId rowArgmax.vector = t.val + 1 ∧
      (∀ u, u.val < t.val →
        ([1/4, 1/2, 1/4] : List ℚ).get u < ([1/4, 1/2, 1/4] : List ℚ).get t) ∧
      (∀ u, ([1/4, 1/2, 1/4] : List ℚ).get u ≤ ([1/4, 1/2, 1/4] : List ℚ).get t) ∧
      ((assignRow gsThree rowArgmax).getD t.val noGroup).members =
        (gsThree.getD t.val noGroup).members ++ [rowArgmax] ∧
      (∀ p, p < gsThree.length → p ≠ t.val →
        (assignRow gsThree rowArgmax).getD p noGroup = gsThree.getD p noGroup) :=
  hard_assignment_appends_to_first_argmax rowArgmax [1/4, 1/2, 1/4] gsThree
    (by decide) (by decide) (by decide) (by decide)

/-! ### Redistribution (claims C3 and C7) -/

/-- Membership through the stable-sort insertion step. -/
theorem mem_insertLe {α : Type} (le : α → α → Bool) (x a : α) (l : List α) :
    a ∈ insertLe le x l ↔ a = x ∨ a ∈ l := by
  induction l with
  | nil => simp [insertLe]
  | cons y t ih =>
    unfold insertLe
    by_cases h : le y x = true
    · rw [if_pos h]
      simp only [List.mem_cons, ih]
      tauto
    · rw [if_neg h]
      simp only [List.mem_cons]

/-- Membership through the stable sort's fold. -/
theorem mem_sortStable_fold {α : Type} (le : α → α → Bool) (a : α) :
    ∀ (l acc : List α),
      (a ∈ l.foldl (fun acc x => insertLe le x acc) acc ↔ a ∈ acc ∨ a ∈ l) := by
  intro l
  induction l with
  | nil => intro acc; simp
  | cons x t ih =>
    intro acc
    show a ∈ t.foldl (fun acc x => insertLe le x acc) (insertLe le x acc) ↔ _
    rw [ih, mem_insertLe]
    simp only [List.mem_cons]
    tauto

/-- The stable sort permutes membership. -/
theorem mem_sortStable {α : Type} (le : α → α → Bool) (a : α) (l : List α) :
    a ∈ sortStable le l ↔ a ∈ l := by
  unfold sortStable
  simp [mem_sortStable_fold]

/-- Lemma: `getD` through `mapIdx` on group lists. -/
theorem getD_mapIdxG (f : ℕ → GroupM → GroupM) (gs : List GroupM) (p : ℕ)
    (hp : p < gs.length) :
    (gs.mapIdx f).getD p noGroup = f p (gs.getD p noGroup) := by
  rw [List.getD_eq_getElem _ _ (by simp only [List.length_mapIdx]; exact hp)]
  simp only [List.mapIdx_eq_enum_map, List.getElem_map, List.getElem_enum]
  rw [List.getD_eq_getElem _ _ hp]
  rfl

/-- Every pair produced by the rank-building `mapIdx` carries an index inside
the vector, and each index of the vector occurs. -/
theorem mem_pairs_snd_lt (v : List Dec) (x : Dec × ℕ)
    (hx : x ∈ v.mapIdx fun idx val => (val, idx)) : x.2 < v.length := by
  obtain ⟨p, hp, hval⟩ := List.mem_iff_getElem.mp hx
  have hp' : p < v.length := by simpa using hp
  have : (v.mapIdx fun idx val => (val, idx))[p] = (v[p], p) := by
    simp only [List.mapIdx_eq_enum_map, List.getElem_map, List.getElem_enum]
    rfl
  rw [this] at hval
  rw [← hval]
  exact hp'

/-- Each index of the vector occurs among the rank-building pairs. -/
theorem pairs_mem (v : List Dec) (j : ℕ) (hj : j < v.length) :
    (v[j], j) ∈ v.mapIdx fun idx val => (val, idx) := by
  have hj2 : j < (v.mapIdx fun idx val => (val, idx)).length := by simpa using hj
  have : (v.mapIdx fun idx val => (val, idx))[j] = (v[j], j) := by
    simp only [List.mapIdx_eq_enum_map, List.getElem_map, List.getElem_enum]
    rfl
  rw [← this]
  exact List.getElem_mem hj2

/-- Unfolding of one redistribution move once the donor's member list is
exposed. -/
theorem moveStep_eq_of_members (minS maxS i : ℕ) (gs : List GroupM) (m0 : MRow)
    (rest : List MRow) (hmem : (gs.getD i noGroup).members = m0 :: rest) :
    moveStep minS maxS i gs =
      (if (((sortStable (fun a b => cmpKeyLe b.1 a.1)
            (m0.vector.mapIdx fun idx val => (val, idx))).filter fun v => v.2 ≠ i).map
            (fun (v : Dec × ℕ) => v.2)).all (· < gs.length) then
        match (((sortStable (fun a b => cmpKeyLe b.1 a.1)
            (m0.vector.mapIdx fun idx val => (val, idx))).filter fun v => v.2 ≠ i).map
            (fun (v : Dec × ℕ) => v.2)).filter (fun idx =>
              decide ((gs.getD idx noGroup).members.length < minS) ||
                ((gs.all fun g => g.members.length = minS) &&
                  decide ((gs.getD idx noGroup).members.length < maxS))) with
        | [] => none
        | dest :: _ =>
          some (gs.mapIdx fun j g =>
            if j = dest then { g with members := g.members ++ [m0] }
            else if j = i then { g with members := rest }
            else g)
      else none) := by
  unfold moveStep
  rw [hmem]

/-- A successful move keeps the group count and, for `minS ≤ maxS`, leaves
every group either within `maxS` or no larger than before. -/
theorem moveStep_sizes (minS maxS i : ℕ) (gs gs' : List GroupM) (hmin : minS ≤ maxS)
    (h : moveStep minS maxS i gs = some gs') :
    gs'.length = gs.length ∧
      ∀ p, p < gs.length →
        (gs'.getD p noGroup).members.length ≤ maxS ∨
          (gs'.getD p noGroup).members.length ≤ (gs.getD p noGroup).members.length := by
  cases hmem : (gs.getD i noGroup).members with
  | nil =>
    rw [show moveStep minS maxS i gs = none by unfold moveStep; rw [hmem]] at h
    exact absurd h (by simp)
  | cons m0 rest =>
    rw [moveStep_eq_of_members minS maxS i gs m0 rest hmem] at h
    by_cases hguard : (((sortStable (fun a b => cmpKeyLe b.1 a.1)
        (m0.vector.mapIdx fun idx val => (val, idx))).filter fun v => v.2 ≠ i).map
        (fun (v : Dec × ℕ) => v.2)).all (· < gs.length) = true
    · rw [if_pos hguard] at h
      cases hreal : (((sortStable (fun a b => cmpKeyLe b.1 a.1)
          (m0.vector.mapIdx fun idx val => (val, idx))).filter fun v => v.2 ≠ i).map
          (fun (v : Dec × ℕ) => v.2)).filter (fun idx =>
            decide ((gs.getD idx noGroup).members.length < minS) ||
              ((gs.all fun g => g.members.length = minS) &&
                decide ((gs.getD idx noGroup).members.length < maxS))) with
      | nil =>
        rw [hreal] at h
        exact absurd h (by simp)
      | cons dest rs =>
        rw [hreal] at h
        have hgs' : gs' = gs.mapIdx fun j g =>
            if j = dest then { g with members := g.members ++ [m0] }
            else if j = i then { g with members := rest }
            else g := by
          exact (Option.some.injEq _ _ ▸ h).symm
        have hdestlt : (gs.getD dest noGroup).members.length < maxS := by
          have hdmem : dest ∈ (((sortStable (fun a b => cmpKeyLe b.1 a.1)
              (m0.vector.mapIdx fun idx val => (val, idx))).filter fun v => v.2 ≠ i).map
              (fun (v : Dec × ℕ) => v.2)).filter (fun idx =>
                decide ((gs.getD idx noGroup).members.length < minS) ||
                  ((gs.all fun g => g.members.length = minS) &&
                    decide ((gs.getD idx noGroup).members.length < maxS))) := by
            rw [hreal]
            exact List.mem_cons_self dest rs
          have hpred := (List.mem_filter.mp hdmem).2
          rcases Bool.or_eq_true_iff.mp hpred with h1 | h2
          · exact lt_of_lt_of_le (of_decide_eq_true h1) hmin
          · exact of_decide_eq_true (Bool.and_eq_true_iff.mp h2).2
        subst hgs'
        refine ⟨by simp, fun p hp => ?_⟩
        rw [getD_mapIdxG _ gs p hp]
        by_cases hpd : p = dest
        · subst hpd
          rw [if_pos rfl]
          left
          simpa using hdestlt
        · rw [if_neg hpd]
          by_cases hpi : p = i
          · subst hpi
            rw [if_pos rfl]
            right
            rw [hmem]
            simp
          · rw [if_neg hpi]
            right
            exact le_refl _
    · rw [if_neg hguard] at h
      exact absurd h (by simp)

/-- Unfolding of one redistribution loop round. -/
theorem redis_succ (minS maxS fuel i : ℕ) (gs : List GroupM) :
    redis minS maxS (fuel + 1) i gs =
      if i < gs.length then
        (if maxS < (gs.getD i noGroup).members.length then
          (match moveStep minS maxS i gs with
           | none => none
           | some gs1 => redis minS maxS fuel i gs1)
        else redis minS maxS fuel (i + 1) gs)
      else some gs :=
  rfl

/-- Any successful run of the redistribution loop leaves every group at or
below `maxS`, provided groups before the cursor already satisfy the bound. -/
theorem redis_bound (minS maxS : ℕ) (hmin : minS ≤ maxS) :
    ∀ fuel i gs out, redis minS maxS fuel i gs = some out →
      (∀ p, p < gs.length → p < i → (gs.getD p noGroup).members.length ≤ maxS) →
      ∀ g ∈ out, g.members.length ≤ maxS := by
  intro fuel
  induction fuel with
  | zero =>
    intro i gs out h
    exact absurd h (by simp [redis])
  | succ fuel ih =>
    intro i gs out h hinv
    rw [redis_succ] at h
    by_cases hi : i < gs.length
    · rw [if_pos hi] at h
      by_cases hdon : maxS < (gs.getD i noGroup).members.length
      · rw [if_pos hdon] at h
        cases hm : moveStep minS maxS i gs with
        | none => rw [hm] at h; exact absurd h (by simp)
        | some gs1 =>
          rw [hm] at h
          obtain ⟨hlen1, hsz⟩ := moveStep_sizes minS maxS i gs gs1 hmin hm
          refine ih i gs1 out h (fun p hp hpi => ?_)
          rcases hsz p (hlen1 ▸ hp) with hle | hle
          · exact hle
          · exact le_trans hle (hinv p (hlen1 ▸ hp) hpi)
      · rw [if_neg hdon] at h
        refine ih (i + 1) gs out h (fun p hp hpi => ?_)
        by_cases hpi' : p = i
        · subst hpi'
          exact not_lt.mp hdon
        · exact hinv p hp (by omega)
    · rw [if_neg hi] at h
      have hout : out = gs := (Option.some.injEq _ _ ▸ h).symm
      subst hout
      intro g hg
      obtain ⟨p, hp, hval⟩ := List.mem_iff_getElem.mp hg
      have hple : (out.getD p noGroup).members.length ≤ maxS := by
        refine hinv p hp (lt_of_lt_of_le hp (not_lt.mp hi))
      rw [List.getD_eq_getElem _ _ hp, hval] at hple
      exact hple

/-- Claim C3 (amended): whenever `formGroups` completes (returns a group list at
all), every group's member count is at most `maxSize = ceil(N/k)`; the claimed
lower bound `floor(N/k)` is *not* guaranteed — see the counterexample, where a
group ends below the floor because redistribution only drains groups above
`maxSize` and never fills groups below `minSize` unless some group overflows. -/
theorem formGroups_respects_upper_bound (st : FCMState) (out : List GroupM)
    (hk : 0 < st.groupNum) (h : formGroups st = some out) :
    ∀ g ∈ out, g.members.length ≤ (st.mat.length + st.groupNum - 1) / st.groupNum := by
  have hmin : st.mat.length / st.groupNum ≤ (st.mat.length + st.groupNum - 1) / st.groupNum :=
    Nat.div_le_div_right (by omega)
  unfold formGroups at h
  exact redis_bound _ _ hmin _ 0 _ out h (fun p hp hlt => absurd hlt (Nat.not_lt_zero p))

/-- Minimal configuration whose `formGroups` succeeds (C3 witness input). -/
def oneGroupState : FCMState :=
  { mat := []
    groupNum := 1
    centers := [[Dec.fin 0]]
    objectiveValue := Dec.fin 0
    mass := 2 }

unseal Rat.add Rat.mul Rat.inv Rat.sub in
/-- Claim C3 witness: the upper bound applied to the empty-population, one-group
run, at its unique returned (empty) group. -/
theorem formGroups_respects_upper_bound_witness :
    (GroupM.mk 1 [Dec.fin 0] []).members.length ≤
      (oneGroupState.mat.length + oneGroupState.groupNum - 1) / oneGroupState.groupNum :=
  formGroups_respects_upper_bound oneGroupState [⟨1, [Dec.fin 0], []⟩]
    (by decide) (by decide) (GroupM.mk 1 [Dec.fin 0] []) (by decide)

/-- Rows whose greatest value selects cluster 1 (C3 counterexample). -/
def vecClusterOne : List Dec := [Dec.fin (1/2), Dec.fin (1/4), Dec.fin (1/8), Dec.fin (1/8)]

/-- Rows whose greatest value selects cluster 2 (C3 counterexample). -/
def vecClusterTwo : List Dec := [Dec.fin (1/4), Dec.fin (1/2), Dec.fin (1/8), Dec.fin (1/8)]

/-- Rows whose greatest value selects cluster 3 (C3 counterexample). -/
def vecClusterThree : List Dec := [Dec.fin (1/8), Dec.fin (1/8), Dec.fin (1/2), Dec.fin (1/4)]

/-- A population of five with four groups whose hard assignment is
`(2, 2, 1, 0)`: no group exceeds `maxSize = 2`, so redistribution does
nothing and group 4 stays below `minSize = 1`. -/
def fiveFourState : FCMState :=
  { mat := [⟨⟨1, [0, 0, 0, 0]⟩, vecClusterOne⟩, ⟨⟨2, [0, 0, 0, 0]⟩, vecClusterOne⟩,
            ⟨⟨3, [0, 0, 0, 0]⟩, vecClusterTwo⟩, ⟨⟨4, [0, 0, 0, 0]⟩, vecClusterTwo⟩,
            ⟨⟨5, [0, 0, 0, 0]⟩, vecClusterThree⟩]
    groupNum := 4
    centers := [[Dec.fin 0], [Dec.fin 0], [Dec.fin 0], [Dec.fin 0]]
    objectiveValue := Dec.fin 0
    mass := 2 }

unseal Rat.add Rat.mul Rat.inv Rat.sub in
/-- Claim C3 counterexample: with `N = 5`, `k = 4` the returned group sizes are
`[2, 2, 1, 0]`, and the last group's count `0` is strictly below
`floor(N/k) = 1` — the claimed interval `[floor(N/k), ceil(N/k)]` does not
hold for every group. -/
theorem formGroups_can_return_below_floor :
    (formGroups fiveFourState).map (fun gs => gs.map fun g => g.members.length) =
      some [2, 2, 1, 0] ∧
    fiveFourState.mat.length / fiveFourState.groupNum = 1 ∧ ¬ ((1 : ℕ) ≤ 0) := by
  decide

/-! ### Redistribution move and its missing destination (claim C7) -/

/-- Claim C7 (amended): whenever the donor group `i` is nonempty, the moved
member's ranking vector spans the group list, and some *other* group currently
has fewer than `minS` members, the redistribution move succeeds and strictly
drains the donor (its size drops by exactly one).  Without such a destination
the move fails — the claimed "a valid destination always exists" is refuted by
the concrete counterexample below. -/
theorem moveStep_drains_donor (minS maxS i : ℕ) (gs : List GroupM)
    (hvec : ((gs.getD i noGroup).members.headD noRow).vector.length = gs.length)
    (hne : (gs.getD i noGroup).members ≠ [])
    (hdest : ∃ j, j < gs.length ∧ j ≠ i ∧ (gs.getD j noGroup).members.length < minS) :
    ∃ gs', moveStep minS maxS i gs = some gs' ∧ gs'.length = gs.length ∧
      (gs'.getD i noGroup).members.length + 1 = (gs.getD i noGroup).members.length := by
  obtain ⟨j, hj, hji, hjsmall⟩ := hdest
  cases hmem : (gs.getD i noGroup).members with
  | nil => exact absurd hmem hne
  | cons m0 rest =>
    have hm0 : m0.vector.length = gs.length := by
      rw [hmem] at hvec
      exact hvec
    rw [moveStep_eq_of_members minS maxS i gs m0 rest hmem]
    have hguard : (((sortStable (fun a b => cmpKeyLe b.1 a.1)
        (m0.vector.mapIdx fun idx val => (val, idx))).filter fun v => v.2 ≠ i).map
        (fun (v : Dec × ℕ) => v.2)).all (· < gs.length) = true := by
      rw [List.all_eq_true]
      intro y hy
      obtain ⟨x, hx, rfl⟩ := List.mem_map.mp hy
      have hx2 := (List.mem_filter.mp hx).1
      rw [mem_sortStable] at hx2
      have := mem_pairs_snd_lt m0.vector x hx2
      simpa [hm0] using this
    rw [if_pos hguard]
    have hjmem : j ∈ (((sortStable (fun a b => cmpKeyLe b.1 a.1)
        (m0.vector.mapIdx fun idx val => (val, idx))).filter fun v => v.2 ≠ i).map
        (fun (v : Dec × ℕ) => v.2)).filter (fun idx =>
          decide ((gs.getD idx noGroup).members.length < minS) ||
            ((gs.all fun g => g.members.length = minS) &&
              decide ((gs.getD idx noGroup).members.length < maxS))) := by
      rw [List.mem_filter]
      constructor
      · refine List.mem_map.mpr ⟨(m0.vector.getD j Dec.nan, j), ?_, rfl⟩
        rw [List.mem_filter]
        have hjv : j < m0.vector.length := by rw [hm0]; exact hj
        refine ⟨?_, by simpa using hji⟩
        rw [mem_sortStable]
        rw [List.getD_eq_getElem _ _ hjv]
        exact pairs_mem m0.vector j hjv
      · exact Bool.or_eq_true_iff.mpr (Or.inl (decide_eq_true hjsmall))
    cases hreal : (((sortStable (fun a b => cmpKeyLe b.1 a.1)
        (m0.vector.mapIdx fun idx val => (val, idx))).filter fun v => v.2 ≠ i).map
        (fun (v : Dec × ℕ) => v.2)).filter (fun idx =>
          decide ((gs.getD idx noGroup).members.length < minS) ||
            ((gs.all fun g => g.members.length = minS) &&
              decide ((gs.getD idx noGroup).members.length < maxS))) with
    | nil =>
      rw [hreal] at hjmem
      exact absurd hjmem (List.not_mem_nil j)
    | cons dest rs =>
      have hdesti : dest ≠ i := by
        have hdmem : dest ∈ (((sortStable (fun a b => cmpKeyLe b.1 a.1)
            (m0.vector.mapIdx fun idx val => (val, idx))).filter fun v => v.2 ≠ i).map
            (fun (v : Dec × ℕ) => v.2)).filter (fun idx =>
              decide ((gs.getD idx noGroup).members.length < minS) ||
                ((gs.all fun g => g.members.length = minS) &&
                  decide ((gs.getD idx noGroup).members.length < maxS))) := by
          rw [hreal]
          exact List.mem_cons_self dest rs
        have hth := (List.mem_filter.mp hdmem).1
        obtain ⟨x, hx, rfl⟩ := List.mem_map.mp hth
        have := (List.mem_filter.mp hx).2
        simpa using this
      refine ⟨_, rfl, by simp, ?_⟩
      have hilt : i < gs.length := by
        by_contra hcon
        have : (gs.getD i noGroup).members = [] := by
          rw [List.getD_eq_default _ _ (by omega)]
          rfl
        rw [hmem] at this
        exact absurd this (by simp)
      rw [getD_mapIdxG _ gs i hilt]
      rw [if_neg (fun hc => hdesti hc.symm), if_pos rfl]
      rfl

/-- Two groups for the C7 witness: a donor with two members and an empty
group below the floor. -/
def donorPairState : List GroupM :=
  [⟨1, [], [⟨⟨1, [0, 0, 0, 0]⟩, [Dec.fin (1/2), Dec.fin (1/2)]⟩,
            ⟨⟨2, [0, 0, 0, 0]⟩, [Dec.fin (3/5), Dec.fin (2/5)]⟩]⟩,
   ⟨2, [], []⟩]

unseal Rat.add Rat.mul Rat.inv Rat.sub in
/-- Claim C7 witness: with `minS = maxS = 1`, donor group 1 holding two members
and group 2 empty, the move succeeds and the donor shrinks by one. -/
theorem moveStep_drains_donor_witness :
    ∃ gs', moveStep 1 1 0 donorPairState = some gs' ∧
      gs'.length = donorPairState.length ∧
      (gs'.getD 0 noGroup).members.length + 1 =
        (donorPairState.getD 0 noGroup).members.length :=
  moveStep_drains_donor 1 1 0 donorPairState (by decide) (by decide)
    ⟨1, by decide, by decide, by decide⟩

/-- Eight entities, three clusters, hard assignment `(4, 2, 2)` — the donor
exceeds `maxSize = 3` but no other group is below `minSize = 2` and not every
group has exactly `minSize`, so the redistribution filter is empty. -/
def eightThreeState : FCMState :=
  { mat := [⟨⟨1, [0, 0, 0, 0]⟩, [Dec.fin (1/2), Dec.fin (3/10), Dec.fin (1/5)]⟩,
            ⟨⟨2, [0, 0, 0, 0]⟩, [Dec.fin (1/2), Dec.fin (3/10), Dec.fin (1/5)]⟩,
            ⟨⟨3, [0, 0, 0, 0]⟩, [Dec.fin (1/2), Dec.fin (3/10), Dec.fin (1/5)]⟩,
            ⟨⟨4, [0, 0, 0, 0]⟩, [Dec.fin (1/2), Dec.fin (3/10), Dec.fin (1/5)]⟩,
            ⟨⟨5, [0, 0, 0, 0]⟩, [Dec.fin (3/10), Dec.fin (1/2), Dec.fin (1/5)]⟩,
            ⟨⟨6, [0, 0, 0, 0]⟩, [Dec.fin (3/10), Dec.fin (1/2), Dec.fin (1/5)]⟩,
            ⟨⟨7, [0, 0, 0, 0]⟩, [Dec.fin (1/5), Dec.fin (3/10), Dec.fin (1/2)]⟩,
            ⟨⟨8, [0, 0, 0, 0]⟩, [Dec.fin (1/5), Dec.fin (3/10), Dec.fin (1/2)]⟩]
    groupNum := 3
    centers := [[Dec.fin 0], [Dec.fin 0], [Dec.fin 0]]
    objectiveValue := Dec.fin 0
    mass := 2 }

/-- The groups entering redistribution in the eight-entity scenario. -/
def eightThreeGroups : List GroupM :=
  sortMembers (eightThreeState.mat.foldl assignRow
    (sortStable (fun a b => decide (a.id ≤ b.id))
      (eightThreeState.centers.mapIdx fun i c => ⟨i + 1, c, []⟩)))

unseal Rat.add Rat.mul Rat.inv Rat.sub in
/-- Claim C7 counterexample: in the eight-entity, three-cluster run the donor
group holds 4 members with `maxSize = 3` and `minSize = 2`, yet the
destination filter is empty (the move crashes: `none`), and the whole
`formGroups` run fails — a valid destination does *not* always exist while a
group still exceeds `maxSize`. -/
theorem redistribution_destination_can_be_missing :
    (eightThreeGroups.map fun g => g.members.length) = [4, 2, 2] ∧
    (eightThreeState.mat.length + eightThreeState.groupNum - 1) / eightThreeState.groupNum
      = 3 ∧
    eightThreeState.mat.length / eightThreeState.groupNum = 2 ∧
    moveStep 2 3 0 eightThreeGroups = none ∧
    formGroups eightThreeState = none := by
  decide

end Endah
